import Mathlib

/-!
Verification of the byte-stream relay core of the `remoter` repository
(`src/main.go`): the registry of websocket subscribers (`clients` map guarded
by `clientsMux`), the broadcast sweep (`broadcast`, main.go lines 116-137),
the subscriber lifecycle (`handleWebSocket`, lines 139-173) and the producer
ingest endpoint (`handleStream`, lines 175-207).

The embedding is a shallow one: each Go function is translated into a Lean
function over an explicit server state.  Subscriber connections are
identified by natural numbers (standing for the `*websocket.Conn` pointers,
which Go guarantees are distinct for distinct live connections), a chunk is a
list of bytes, and the outcome of each network write is supplied by an
oracle `fail : Nat → Bool` (the network is outside the program).  The
`clients` map of Go is modelled as a duplicate-free list of connection ids;
`delete` is `List.erase`, and map-insert is an append guarded by membership.
Delivery attempts are recorded in a ghost log so that the per-subscriber
received sequence can be stated.

Lock/IO interleaving inside one `broadcast` call is modelled separately by an
event trace (`broadcastTrace`) that lists, in program order, the
`clientsMux` acquisitions/releases, the per-subscriber writes and the
close/delete calls exactly as they occur in main.go lines 116-137.
-/

namespace Remoter

/-- A chunk: an opaque sequence of bytes read from the producer body.  Bytes
are modelled as naturals (their numeric value; no arithmetic is performed on
them, they are forwarded verbatim). -/
abbrev Chunk := List Nat

/-- One delivery attempt made by the broadcast sweep: the target subscriber,
the chunk, and whether the `WriteMessage` call succeeded. -/
structure Delivery where
  sub : Nat
  data : Chunk
  ok : Bool
deriving DecidableEq

/-- The shared server state: the `clients` map of main.go (modelled as a
duplicate-free list of connection ids) together with the ghost log of all
delivery attempts made so far, in program order. -/
structure SrvState where
  clients : List Nat
  log : List Delivery
deriving DecidableEq

/-- The sequence of chunks successfully delivered to subscriber `s`, in
delivery order (the ghost observation of `WriteMessage` successes). -/
def received (s : Nat) (st : SrvState) : List Chunk :=
  (st.log.filter (fun d => d.sub == s && d.ok)).map Delivery.data

/-- The sequence of chunks whose delivery to subscriber `s` was attempted
(successfully or not), in order. -/
def attemptsTo (s : Nat) (st : SrvState) : List Chunk :=
  (st.log.filter (fun d => d.sub == s)).map Delivery.data

/-- State-level embedding of `broadcast` (main.go lines 116-137): under the
lock it writes `data` to every client of the live map, collecting the ones
whose write failed, and after the sweep closes and deletes exactly those.
The write outcome for connection `c` is `fail c` (failure oracle for this
call).  The surviving client set is therefore the failing-free filter of the
old one, and one delivery attempt per client is appended to the ghost log in
iteration order. -/
def broadcast (fail : Nat → Bool) (data : Chunk) (st : SrvState) : SrvState :=
  { clients := st.clients.filter (fun c => !fail c)
    log := st.log ++ st.clients.map (fun c => Delivery.mk c data (!fail c)) }

/-- Events observable inside one `broadcast` call: acquisition/release of the
read and write sides of `clientsMux`, a `WriteMessage` to connection `c`
(with its outcome), a `Close` of `c`, and a `delete(clients, c)`. -/
inductive Ev where
  | rlock
  | runlock
  | wlock
  | wunlock
  | wr (c : Nat) (data : Chunk) (ok : Bool)
  | cls (c : Nat)
  | del (c : Nat)
deriving DecidableEq

/-- Trace of the eviction phase of `broadcast` (main.go lines 127-136): if
no write failed, nothing happens; otherwise the read lock is dropped, the
write lock taken, every disconnected client is closed and deleted, and the
locks are restored for the deferred `RUnlock`. -/
def evictTrace (ds : List Nat) : List Ev :=
  if ds.isEmpty then []
  else
    Ev.runlock :: Ev.wlock ::
      ((ds.map (fun c => [Ev.cls c, Ev.del c])).flatten ++ [Ev.wunlock, Ev.rlock])

/-- Event trace of one `broadcast fail data` call over client set `cs`
(main.go lines 116-137): `RLock`; one `WriteMessage` per client of the live
map, in iteration order, none skipped; then the eviction phase for the
clients whose write failed; then the deferred `RUnlock`. -/
def broadcastTrace (fail : Nat → Bool) (data : Chunk) (cs : List Nat) : List Ev :=
  Ev.rlock ::
    (cs.map (fun c => Ev.wr c data (!fail c)) ++
      (evictTrace (cs.filter fail) ++ [Ev.runlock]))

/-- Checker for the specified lock discipline, scanning a trace while
tracking how many holds of `clientsMux` are outstanding (read side or write
side alike): it demands that every network write happen with no hold of the
mutex outstanding.  `d` is the current number of outstanding holds. -/
def noIOUnderLock : List Ev → Int → Bool
  | [], _ => true
  | e :: rest, d =>
    match e with
    | Ev.rlock => noIOUnderLock rest (d + 1)
    | Ev.wlock => noIOUnderLock rest (d + 1)
    | Ev.runlock => noIOUnderLock rest (d - 1)
    | Ev.wunlock => noIOUnderLock rest (d - 1)
    | Ev.wr _ _ _ => (d == 0) && noIOUnderLock rest d
    | _ => noIOUnderLock rest d

/-- Checker for the lock discipline the code actually follows, scanning a
trace while tracking the outstanding read-side holds `r` and write-side
holds `w` separately: every network write happens with the read side held
(and never the exclusive side), and every close/delete happens with the
exclusive side held. -/
def lockDiscipline : List Ev → Int → Int → Bool
  | [], _, _ => true
  | e :: rest, r, w =>
    match e with
    | Ev.rlock => lockDiscipline rest (r + 1) w
    | Ev.runlock => lockDiscipline rest (r - 1) w
    | Ev.wlock => lockDiscipline rest r (w + 1)
    | Ev.wunlock => lockDiscipline rest r (w - 1)
    | Ev.wr _ _ _ => (r == 1 && w == 0) && lockDiscipline rest r w
    | Ev.cls _ => (r == 0 && w == 1) && lockDiscipline rest r w
    | Ev.del _ => (r == 0 && w == 1) && lockDiscipline rest r w

/-- The operations that touch the registry, in the order the `clientsMux`
serializes them: a `Publish` (one `broadcast` call with its per-call failure
oracle), a subscriber registration (`clients[conn] = true`, main.go lines
146-149), and a subscriber removal (`delete(clients, conn)`, the close
handler / read-error path of main.go lines 153-172). -/
inductive Op where
  | publish (data : Chunk) (fail : Nat → Bool)
  | join (s : Nat)
  | leave (s : Nat)

/-- One serialized registry operation.  Map insertion of an already present
key leaves the key set unchanged, otherwise it extends it; map deletion is
`List.erase`. -/
def step (st : SrvState) (op : Op) : SrvState :=
  match op with
  | Op.publish data fail => broadcast fail data st
  | Op.join s =>
      { st with clients := if s ∈ st.clients then st.clients else st.clients ++ [s] }
  | Op.leave s => { st with clients := st.clients.erase s }

/-- A serialized history of registry operations, applied in order. -/
def run (ops : List Op) (st : SrvState) : SrvState :=
  ops.foldl step st

/-- The chunks published by a history, in order. -/
def pubs : List Op → List Chunk
  | [] => []
  | Op.publish data _ :: rest => data :: pubs rest
  | Op.join _ :: rest => pubs rest
  | Op.leave _ :: rest => pubs rest

/-- An operation leaves subscriber `s` registered and successfully served:
a publish whose write to `s` succeeds, any registration, or the removal of a
different subscriber. -/
def stableFor (s : Nat) : Op → Bool
  | Op.publish _ fail => !fail s
  | Op.join _ => true
  | Op.leave t => t != s

/-- Whether an operation is the registration of subscriber `s`. -/
def isJoinOf (s : Nat) : Op → Bool
  | Op.join t => t == s
  | _ => false

/-- The outcome of one `r.Body.Read(buf)` call in the ingest loop: the bytes
placed into the buffer and whether a non-nil error was returned alongside
them. -/
structure ReadRes where
  bytes : Chunk
  errored : Bool
deriving DecidableEq

/-- The chunks the ingest loop (main.go lines 188-206) passes to `broadcast`,
given the sequence of body-read outcomes: each read with `n > 0` contributes
its bytes, and the loop breaks right after the first read that reported an
error (its bytes, if any, are still published first). -/
def ingestChunks : List ReadRes → List Chunk
  | [] => []
  | r :: rest =>
      (if 0 < r.bytes.length then [r.bytes] else []) ++
        (if r.errored then [] else ingestChunks rest)

/-- State-level embedding of the ingest loop of `handleStream` (main.go
lines 188-206): read, broadcast the bytes if `n > 0`, stop if the read
errored, otherwise continue with the next read outcome.  `fail` is the write
oracle handed to every broadcast of this session. -/
def streamLoop (fail : Nat → Bool) : List ReadRes → SrvState → SrvState
  | [], st => st
  | r :: rest, st =>
      let st1 := if 0 < r.bytes.length then broadcast fail r.bytes st else st
      if r.errored then st1 else streamLoop fail rest st1

/-- Number of `r.Body.Read` calls the ingest loop performs on a given
sequence of read outcomes (it stops consuming after the first error). -/
def readsUsed : List ReadRes → Nat
  | [] => 0
  | r :: rest => 1 + (if r.errored then 0 else readsUsed rest)

/-- Embedding of `handleStream` (main.go lines 175-207): any method other
than POST or PUT is answered with 405 before the body is touched; otherwise
the ingest loop runs.  The result records the HTTP status, the resulting
server state, and how many body reads were performed. -/
def handleStream (method : String) (fail : Nat → Bool) (reads : List ReadRes)
    (st : SrvState) : Nat × SrvState × Nat :=
  if method != "POST" && method != "PUT" then (405, st, 0)
  else (200, streamLoop fail reads st, readsUsed reads)

/-- Embedding of the registration part of `handleWebSocket` (main.go lines
139-149): `upgrade` is `none` when `upgrader.Upgrade` failed (the handler
logs and returns at once) and `some conn` on success, in which case the
connection is inserted into the clients map.  The result carries the new
state and the created subscriber, if any. -/
def handleWebSocketReg (upgrade : Option Nat) (st : SrvState) : SrvState × Option Nat :=
  match upgrade with
  | none => (st, none)
  | some conn =>
      ({ st with clients := if conn ∈ st.clients then st.clients else st.clients ++ [conn] },
        some conn)

/-- The terminal event observed by the disconnect detector of
`handleWebSocket` on a registered connection: a plain read failure, or an
explicit close signal from the peer. -/
inductive TermEvent where
  | readError
  | closeSignal

/-- One `delete(clients, conn)` under the write lock. -/
def removeClient (conn : Nat) (st : SrvState) : SrvState :=
  { st with clients := st.clients.erase conn }

/-- Embedding of the disconnect handling of `handleWebSocket` (main.go lines
153-172) together with the relevant gorilla/websocket semantics: on a plain
read error only the read-loop path runs and deletes the connection once; on
an explicit close signal the library first invokes the close handler set by
`SetCloseHandler` (which deletes the connection) and then makes
`ReadMessage` return a `CloseError`, so the read-loop path deletes it a
second time.  The result carries the final state, how many times
`delete(clients, conn)` was invoked, and whether the handler called
`conn.Close()` on this connection: it never does — neither the close
handler nor the read-loop error branch contains a `Close` call (the only
place the program closes a subscriber connection is the eviction phase of a
later `broadcast` whose write to it fails). -/
def wsDetector (ev : TermEvent) (conn : Nat) (st : SrvState) : SrvState × Nat × Bool :=
  match ev with
  | TermEvent.readError => (removeClient conn st, 1, false)
  | TermEvent.closeSignal => (removeClient conn (removeClient conn st), 2, false)

/-- C9: an upgrade request whose handshake fails is rejected with no side
effects: `handleWebSocketReg` applied to a failed upgrade returns the state
unchanged (no registry mutation of any kind) and creates no subscriber. -/
theorem upgrade_failure_no_mutation (st : SrvState) :
    handleWebSocketReg none st = (st, none) := rfl

/-- C8: any ingest request whose method is neither POST nor PUT is answered
with HTTP 405 and has no side effects: the server state (registry and
delivery log) is returned unchanged, so no `Publish` occurred, and zero body
reads are performed. -/
theorem method_not_allowed_no_side_effects (method : String) (fail : Nat → Bool)
    (reads : List ReadRes) (st : SrvState)
    (h : (method != "POST" && method != "PUT") = true) :
    handleStream method fail reads st = (405, st, 0) := by
  simp [handleStream, h]

theorem method_not_allowed_no_side_effects_witness :
    (("GET" != "POST" && "GET" != "PUT") = true) ∧
      handleStream "GET" (fun _ => false) [ReadRes.mk [1] true]
          (SrvState.mk [5] []) =
        (405, SrvState.mk [5] [], 0) :=
  ⟨by decide,
    method_not_allowed_no_side_effects "GET" (fun _ => false) [ReadRes.mk [1] true]
      (SrvState.mk [5] []) (by decide)⟩

theorem lockDiscipline_writes (fail : Nat → Bool) (data : Chunk) :
    ∀ (cs : List Nat) (rest : List Ev),
      lockDiscipline (cs.map (fun c => Ev.wr c data (!fail c)) ++ rest) 1 0 =
        lockDiscipline rest 1 0
  | [], _ => rfl
  | c :: cs, rest => by
    simp only [List.map_cons, List.cons_append, lockDiscipline]
    simpa using lockDiscipline_writes fail data cs rest

theorem lockDiscipline_evict :
    ∀ (ds : List Nat) (rest : List Ev),
      lockDiscipline ((ds.map (fun c => [Ev.cls c, Ev.del c])).flatten ++ rest) 0 1 =
        lockDiscipline rest 0 1
  | [], _ => rfl
  | c :: ds, rest => by
    simp only [List.map_cons, List.flatten_cons, List.cons_append, List.append_assoc,
      lockDiscipline]
    simpa using lockDiscipline_evict ds rest

/-- C2, amended: the lock discipline `broadcast` actually follows.  Every
subscriber write is performed while the read side of `clientsMux` is held
(and never while the exclusive side is), and every close/delete of a failed
subscriber is performed while the exclusive side is held.  Since `Add` and
`Remove` acquire the exclusive side, a blocked subscriber write blocks a
concurrent `Add`/`Remove` for the duration of the sweep. -/
theorem broadcast_lock_discipline (fail : Nat → Bool) (data : Chunk) (cs : List Nat) :
    lockDiscipline (broadcastTrace fail data cs) 0 0 = true := by
  show lockDiscipline
      (Ev.rlock :: (cs.map (fun c => Ev.wr c data (!fail c)) ++
        (evictTrace (cs.filter fail) ++ [Ev.runlock]))) 0 0 = true
  rw [show lockDiscipline
      (Ev.rlock :: (cs.map (fun c => Ev.wr c data (!fail c)) ++
        (evictTrace (cs.filter fail) ++ [Ev.runlock]))) 0 0 =
      lockDiscipline (cs.map (fun c => Ev.wr c data (!fail c)) ++
        (evictTrace (cs.filter fail) ++ [Ev.runlock])) 1 0 from rfl]
  rw [lockDiscipline_writes]
  by_cases h : (cs.filter fail).isEmpty
  · rw [evictTrace, if_pos h]
    rfl
  · rw [evictTrace, if_neg h]
    simp only [List.cons_append, List.append_assoc, lockDiscipline]
    rw [show ((1 : Int) - 1) = 0 from rfl, show ((0 : Int) + 1) = 1 from rfl]
    simp only [List.append_eq, List.append_assoc]
    rw [lockDiscipline_evict]
    rfl

/-- C2 counterexample: with a single registered subscriber (connection 1)
and a successful write, the broadcast trace is `RLock`, write, `RUnlock`:
the `WriteMessage` call happens while a hold of `clientsMux` is outstanding,
so the checker of the claimed discipline (no network I/O while the registry
mutex is held) rejects the trace.  Since `Add`/`Remove` take the exclusive
side of the same mutex, a blocked write does block them. -/
theorem broadcast_write_under_lock_cex :
    noIOUnderLock (broadcastTrace (fun _ => false) [7] [1]) 0 = false := by
  decide

theorem wr_not_mem_evict (c : Nat) (d : Chunk) (b : Bool) (ds : List Nat) :
    Ev.wr c d b ∉ evictTrace ds := by
  rw [evictTrace]
  by_cases h : ds.isEmpty
  · simp [h]
  · simp [h, List.mem_flatten]

theorem del_mem_evict (c : Nat) (ds : List Nat) :
    Ev.del c ∈ evictTrace ds ↔ c ∈ ds := by
  rw [evictTrace]
  by_cases h : ds.isEmpty
  · rw [if_pos h]
    rw [List.isEmpty_iff] at h
    simp [h]
  · rw [if_neg h]
    simp [List.mem_flatten]

theorem cls_mem_evict (c : Nat) (ds : List Nat) :
    Ev.cls c ∈ evictTrace ds ↔ c ∈ ds := by
  rw [evictTrace]
  by_cases h : ds.isEmpty
  · rw [if_pos h]
    rw [List.isEmpty_iff] at h
    simp [h]
  · rw [if_neg h]
    simp [List.mem_flatten]

/-- C3: a write failure never aborts the sweep and eviction is deferred.
In the trace of any `broadcast` call: (1) every client of the iterated set
gets exactly its own `WriteMessage` attempt, whatever the failure oracle
does to the others; (2) the trace splits into a first part containing no
`delete` and a second part containing no write, i.e. every removal happens
after the whole sweep, never mid-iteration; (3) exactly the clients whose
write failed are deleted from the registry, and (4) exactly those are
closed. -/
theorem broadcast_sweep_deferred_eviction (fail : Nat → Bool) (data : Chunk)
    (cs : List Nat) :
    (∀ c ∈ cs, Ev.wr c data (!fail c) ∈ broadcastTrace fail data cs) ∧
    (∃ t1 t2, broadcastTrace fail data cs = t1 ++ t2 ∧
      (∀ c, Ev.del c ∉ t1) ∧ (∀ c d b, Ev.wr c d b ∉ t2)) ∧
    (∀ c, Ev.del c ∈ broadcastTrace fail data cs ↔ c ∈ cs ∧ fail c = true) ∧
    (∀ c, Ev.cls c ∈ broadcastTrace fail data cs ↔ c ∈ cs ∧ fail c = true) := by
  refine ⟨?_, ⟨Ev.rlock :: cs.map (fun c => Ev.wr c data (!fail c)),
    evictTrace (cs.filter fail) ++ [Ev.runlock], ?_, ?_, ?_⟩, ?_, ?_⟩
  · intro c hc
    rw [broadcastTrace]
    exact List.mem_cons_of_mem _ (List.mem_append_left _ (List.mem_map_of_mem _ hc))
  · rw [broadcastTrace, List.cons_append]
  · intro c
    simp
  · intro c d b
    intro hmem
    rcases List.mem_append.mp hmem with h | h
    · exact wr_not_mem_evict c d b _ h
    · simp at h
  · intro c
    rw [broadcastTrace]
    simp [del_mem_evict, List.mem_filter]
  · intro c
    rw [broadcastTrace]
    simp [cls_mem_evict, List.mem_filter]

theorem filter_sub_map_of_not_mem (s : Nat) (data : Chunk) (fail : Nat → Bool) :
    ∀ cs : List Nat, s ∉ cs →
      (cs.map (fun c => Delivery.mk c data (!fail c))).filter (fun d => d.sub == s) = [] := by
  intro cs
  induction cs with
  | nil => intro _; rfl
  | cons c cs ih =>
    intro h
    rw [List.mem_cons] at h
    push_neg at h
    obtain ⟨h1, h2⟩ := h
    simp only [List.map_cons, List.filter_cons]
    rw [show ((Delivery.mk c data (!fail c)).sub == s) = false from by
      simpa using Ne.symm h1]
    exact ih h2

theorem filter_subok_map_of_not_mem (s : Nat) (data : Chunk) (fail : Nat → Bool) :
    ∀ cs : List Nat, s ∉ cs →
      (cs.map (fun c => Delivery.mk c data (!fail c))).filter
        (fun d => d.sub == s && d.ok) = [] := by
  intro cs
  induction cs with
  | nil => intro _; rfl
  | cons c cs ih =>
    intro h
    rw [List.mem_cons] at h
    push_neg at h
    obtain ⟨h1, h2⟩ := h
    simp only [List.map_cons, List.filter_cons]
    rw [show ((Delivery.mk c data (!fail c)).sub == s && (Delivery.mk c data (!fail c)).ok)
        = false from by simp [Ne.symm h1]]
    exact ih h2

theorem filter_subok_map_of_mem (s : Nat) (data : Chunk) (fail : Nat → Bool) :
    ∀ cs : List Nat, cs.Nodup → s ∈ cs → fail s = false →
      (cs.map (fun c => Delivery.mk c data (!fail c))).filter
        (fun d => d.sub == s && d.ok) = [Delivery.mk s data true] := by
  intro cs
  induction cs with
  | nil => intro _ hs _; exact absurd hs (List.not_mem_nil s)
  | cons c cs ih =>
    intro hnd hs hf
    rw [List.nodup_cons] at hnd
    obtain ⟨hc, hnd'⟩ := hnd
    rcases List.mem_cons.mp hs with h | h
    · subst h
      simp only [List.map_cons, List.filter_cons]
      rw [show ((Delivery.mk s data (!fail s)).sub == s && (Delivery.mk s data (!fail s)).ok)
          = true from by simp [hf]]
      rw [filter_subok_map_of_not_mem s data fail cs hc]
      simp [hf]
    · have hne : s ≠ c := fun he => hc (he ▸ h)
      simp only [List.map_cons, List.filter_cons]
      rw [show ((Delivery.mk c data (!fail c)).sub == s && (Delivery.mk c data (!fail c)).ok)
          = false from by simp [Ne.symm hne]]
      exact ih hnd' h hf

theorem received_broadcast_stable (s : Nat) (fail : Nat → Bool) (data : Chunk)
    (st : SrvState) (hnd : st.clients.Nodup) (hs : s ∈ st.clients)
    (hf : fail s = false) :
    received s (broadcast fail data st) = received s st ++ [data] := by
  rw [received, received, broadcast]
  simp only [List.filter_append, List.map_append]
  rw [filter_subok_map_of_mem s data fail st.clients hnd hs hf]
  rfl

theorem step_nodup (st : SrvState) (op : Op) (h : st.clients.Nodup) :
    (step st op).clients.Nodup := by
  cases op with
  | publish data fail => exact h.filter _
  | join s =>
    by_cases hs : s ∈ st.clients
    · simpa [step, hs] using h
    · simp only [step, if_neg hs]
      rw [← List.concat_eq_append]
      exact h.concat hs
  | leave s => exact h.erase s

theorem run_cons (op : Op) (ops : List Op) (st : SrvState) :
    run (op :: ops) st = run ops (step st op) := rfl

theorem run_nodup (ops : List Op) :
    ∀ st : SrvState, st.clients.Nodup → (run ops st).clients.Nodup := by
  induction ops with
  | nil => intro st h; exact h
  | cons op ops ih =>
    intro st h
    rw [run_cons]
    exact ih _ (step_nodup st op h)

theorem stable_run (s : Nat) (ops : List Op) :
    ∀ st : SrvState, st.clients.Nodup → s ∈ st.clients →
      (∀ op ∈ ops, stableFor s op = true) →
      received s (run ops st) = received s st ++ pubs ops ∧ s ∈ (run ops st).clients := by
  induction ops with
  | nil => intro st _ hs _; simp [run, pubs, hs]
  | cons op ops ih =>
    intro st hnd hs hops
    have hop : stableFor s op = true := hops op (List.mem_cons_self op ops)
    have hops' : ∀ o ∈ ops, stableFor s o = true :=
      fun o ho => hops o (List.mem_cons_of_mem op ho)
    rw [run_cons]
    cases op with
    | publish data fail =>
      have hf : fail s = false := by simpa [stableFor] using hop
      have h2 : s ∈ (broadcast fail data st).clients :=
        List.mem_filter.mpr ⟨hs, by simp [hf]⟩
      obtain ⟨ih1, ih2⟩ :=
        ih (step st (Op.publish data fail)) (step_nodup st _ hnd) h2 hops'
      refine ⟨?_, ih2⟩
      rw [ih1]
      rw [show step st (Op.publish data fail) = broadcast fail data st from rfl]
      rw [received_broadcast_stable s fail data st hnd hs hf]
      simp [pubs]
    | join t =>
      have h2 : s ∈ (step st (Op.join t)).clients := by
        by_cases ht : t ∈ st.clients
        · simpa [step, ht] using hs
        · simp only [step, if_neg ht]
          exact List.mem_append_left _ hs
      obtain ⟨ih1, ih2⟩ := ih (step st (Op.join t)) (step_nodup st _ hnd) h2 hops'
      refine ⟨?_, ih2⟩
      rw [ih1]
      rfl
    | leave t =>
      have hne : t ≠ s := by simpa [stableFor] using hop
      have h2 : s ∈ (step st (Op.leave t)).clients :=
        (List.mem_erase_of_ne (Ne.symm hne)).mpr hs
      obtain ⟨ih1, ih2⟩ := ih (step st (Op.leave t)) (step_nodup st _ hnd) h2 hops'
      refine ⟨?_, ih2⟩
      rw [ih1]
      rfl

/-- C1: order preservation.  Given any serialized history of operations
during which subscriber `s` stays registered and successfully served (every
publish writes to `s` without failure, and `s` is never removed), `s`
receives exactly the published chunks, byte-identical and in publish order —
appended to whatever it had received before — and remains registered. -/
theorem order_preservation (s : Nat) (ops : List Op) (st : SrvState)
    (hnd : st.clients.Nodup) (hs : s ∈ st.clients)
    (hops : ∀ op ∈ ops, stableFor s op = true) :
    received s (run ops st) = received s st ++ pubs ops ∧
      s ∈ (run ops st).clients :=
  stable_run s ops st hnd hs hops

theorem order_preservation_witness :
    (SrvState.mk [1] []).clients.Nodup ∧
      1 ∈ (SrvState.mk [1] []).clients ∧
      (∀ op ∈ [Op.publish [10] (fun _ => false), Op.publish [20] (fun _ => false)],
        stableFor 1 op = true) ∧
      (received 1 (run [Op.publish [10] (fun _ => false), Op.publish [20] (fun _ => false)]
            (SrvState.mk [1] [])) =
          received 1 (SrvState.mk [1] []) ++
            pubs [Op.publish [10] (fun _ => false), Op.publish [20] (fun _ => false)] ∧
        1 ∈ (run [Op.publish [10] (fun _ => false), Op.publish [20] (fun _ => false)]
            (SrvState.mk [1] [])).clients) :=
  ⟨by decide, by decide, by decide,
    order_preservation 1 _ _ (by decide) (by decide) (by decide)⟩

theorem absent_run (s : Nat) (ops : List Op) :
    ∀ st : SrvState, s ∉ st.clients → (∀ op ∈ ops, isJoinOf s op = false) →
      s ∉ (run ops st).clients ∧
        (run ops st).log.filter (fun d => d.sub == s) =
          st.log.filter (fun d => d.sub == s) := by
  induction ops with
  | nil => intro st hs _; exact ⟨hs, rfl⟩
  | cons op ops ih =>
    intro st hs hops
    have hop : isJoinOf s op = false := hops op (List.mem_cons_self op ops)
    have hops' : ∀ o ∈ ops, isJoinOf s o = false :=
      fun o ho => hops o (List.mem_cons_of_mem op ho)
    rw [run_cons]
    cases op with
    | publish data fail =>
      have h2 : s ∉ (broadcast fail data st).clients :=
        fun hmem => hs (List.mem_filter.mp hmem).1
      obtain ⟨ih1, ih2⟩ := ih (step st (Op.publish data fail)) h2 hops'
      refine ⟨ih1, ?_⟩
      rw [ih2]
      rw [show step st (Op.publish data fail) = broadcast fail data st from rfl, broadcast]
      simp only [List.filter_append]
      rw [filter_sub_map_of_not_mem s data fail st.clients hs]
      simp
    | join t =>
      have hne : t ≠ s := by simpa [isJoinOf] using hop
      have h2 : s ∉ (step st (Op.join t)).clients := by
        by_cases ht : t ∈ st.clients
        · simpa [step, ht] using hs
        · simp only [step, if_neg ht]
          intro hmem
          rcases List.mem_append.mp hmem with h | h
          · exact hs h
          · exact hne (List.mem_singleton.mp h).symm
      exact ih (step st (Op.join t)) h2 hops'
    | leave t =>
      have h2 : s ∉ (step st (Op.leave t)).clients :=
        fun hmem => hs (List.mem_of_mem_erase hmem)
      exact ih (step st (Op.leave t)) h2 hops'

/-- C4: eviction finality.  Once a publish's write to subscriber `s` fails,
`s` is removed from the registry by that very call; and as long as the same
identity is never registered again (in the real system a re-join produces a
fresh connection pointer, hence a brand-new identity), no later operation
sequence ever has `s` in the registry, and no later publish attempts any
delivery to `s` (its attempt log stays exactly as it was). -/
theorem eviction_finality (s : Nat) (data : Chunk) (fail : Nat → Bool)
    (st : SrvState) (ops : List Op) (hf : fail s = true)
    (hops : ∀ op ∈ ops, isJoinOf s op = false) :
    s ∉ (broadcast fail data st).clients ∧
      s ∉ (run ops (broadcast fail data st)).clients ∧
      attemptsTo s (run ops (broadcast fail data st)) =
        attemptsTo s (broadcast fail data st) := by
  have h0 : s ∉ (broadcast fail data st).clients := by
    intro hmem
    have hb := (List.mem_filter.mp hmem).2
    rw [hf] at hb
    simp at hb
  obtain ⟨h1, h2⟩ := absent_run s ops (broadcast fail data st) h0 hops
  exact ⟨h0, h1, by rw [attemptsTo, attemptsTo, h2]⟩

theorem eviction_finality_witness :
    ((fun c => c == 1) 1 = true) ∧
      (∀ op ∈ [Op.publish [8] (fun _ => false), Op.join 2], isJoinOf 1 op = false) ∧
      (1 ∉ (broadcast (fun c => c == 1) [9] (SrvState.mk [1] [])).clients ∧
        1 ∉ (run [Op.publish [8] (fun _ => false), Op.join 2]
            (broadcast (fun c => c == 1) [9] (SrvState.mk [1] []))).clients ∧
        attemptsTo 1 (run [Op.publish [8] (fun _ => false), Op.join 2]
            (broadcast (fun c => c == 1) [9] (SrvState.mk [1] []))) =
          attemptsTo 1 (broadcast (fun c => c == 1) [9] (SrvState.mk [1] []))) :=
  ⟨by decide, by decide,
    eviction_finality 1 [9] (fun c => c == 1) (SrvState.mk [1] []) _ (by decide) (by decide)⟩

theorem sfilter_nil_received (s : Nat) (st : SrvState)
    (h : st.log.filter (fun d => d.sub == s) = []) : received s st = [] := by
  rw [received]
  rw [List.filter_eq_nil_iff] at h
  have h2 : st.log.filter (fun d => d.sub == s && d.ok) = [] := by
    rw [List.filter_eq_nil_iff]
    intro d hd hp
    rw [Bool.and_eq_true] at hp
    exact h d hd hp.1
  rw [h2]
  rfl

/-- C5: no replay.  A subscriber `s` that registers after some history
`ops1` (during which it was never registered) and then stays registered and
successfully served through `ops2` receives exactly the chunks published in
`ops2`, and none of the chunks published before its registration. -/
theorem no_replay (s : Nat) (st : SrvState) (ops1 ops2 : List Op)
    (hnd : st.clients.Nodup) (h0 : s ∉ st.clients)
    (hlog : st.log.filter (fun d => d.sub == s) = [])
    (h1 : ∀ op ∈ ops1, isJoinOf s op = false)
    (h2 : ∀ op ∈ ops2, stableFor s op = true) :
    received s (run (ops1 ++ Op.join s :: ops2) st) = pubs ops2 := by
  have hrunapp : run (ops1 ++ Op.join s :: ops2) st =
      run ops2 (step (run ops1 st) (Op.join s)) := by
    rw [run, List.foldl_append]
    rfl
  obtain ⟨ha1, ha2⟩ := absent_run s ops1 st h0 h1
  have hnd1 : (run ops1 st).clients.Nodup := run_nodup ops1 st hnd
  have hmem2 : s ∈ (step (run ops1 st) (Op.join s)).clients := by
    simp only [step, if_neg ha1]
    exact List.mem_append_right _ (List.mem_singleton.mpr rfl)
  have hrec2 : received s (step (run ops1 st) (Op.join s)) = [] := by
    have hx : received s (run ops1 st) = [] :=
      sfilter_nil_received s (run ops1 st) (by rw [ha2, hlog])
    exact hx
  obtain ⟨hr, _⟩ :=
    stable_run s ops2 (step (run ops1 st) (Op.join s))
      (step_nodup (run ops1 st) _ hnd1) hmem2 h2
  rw [hrunapp, hr, hrec2]
  simp

theorem no_replay_witness :
    (SrvState.mk [1] []).clients.Nodup ∧
      2 ∉ (SrvState.mk [1] []).clients ∧
      (SrvState.mk [1] []).log.filter (fun d => d.sub == 2) = [] ∧
      (∀ op ∈ [Op.publish [65] (fun _ => false)], isJoinOf 2 op = false) ∧
      (∀ op ∈ [Op.publish [66] (fun _ => false)], stableFor 2 op = true) ∧
      received 2 (run ([Op.publish [65] (fun _ => false)] ++
          Op.join 2 :: [Op.publish [66] (fun _ => false)]) (SrvState.mk [1] [])) =
        pubs [Op.publish [66] (fun _ => false)] :=
  ⟨by decide, by decide, by decide, by decide, by decide,
    no_replay 2 (SrvState.mk [1] []) _ _ (by decide) (by decide) (by decide)
      (by decide) (by decide)⟩

theorem run_append (a b : List Op) (st : SrvState) :
    run (a ++ b) st = run b (run a st) := by
  rw [run, run, run, List.foldl_append]

theorem streamLoop_eq_run (fail : Nat → Bool) :
    ∀ (reads : List ReadRes) (st : SrvState),
      streamLoop fail reads st =
        run ((ingestChunks reads).map (fun c => Op.publish c fail)) st := by
  intro reads
  induction reads with
  | nil => intro st; rfl
  | cons r rest ih =>
    intro st
    rw [streamLoop, ingestChunks]
    simp only [List.map_append]
    rw [run_append]
    cases hE : r.errored
    · by_cases hn : 0 < r.bytes.length
      · simp only [hE, if_pos hn, Bool.false_eq_true, if_false]
        rw [ih]
        rfl
      · simp only [hE, if_neg hn, Bool.false_eq_true, if_false]
        rw [ih]
        rfl
    · by_cases hn : 0 < r.bytes.length
      · simp only [hE, if_pos hn]
        rfl
      · simp only [hE, if_neg hn]
        rfl

theorem ingestChunks_first_err :
    ∀ (pre : List ReadRes) (r : ReadRes) (post : List ReadRes),
      (∀ q ∈ pre, q.errored = false) → r.errored = true →
      ingestChunks (pre ++ r :: post) =
        ingestChunks pre ++ (if 0 < r.bytes.length then [r.bytes] else []) := by
  intro pre
  induction pre with
  | nil =>
    intro r post _ hr
    simp [ingestChunks, hr]
  | cons q pre ih =>
    intro r post hpre hr
    have hq : q.errored = false := hpre q (List.mem_cons_self q pre)
    have hpre' : ∀ x ∈ pre, x.errored = false :=
      fun x hx => hpre x (List.mem_cons_of_mem q hx)
    rw [List.cons_append]
    rw [show ingestChunks (q :: (pre ++ r :: post)) =
        (if 0 < q.bytes.length then [q.bytes] else []) ++
          (if q.errored then [] else ingestChunks (pre ++ r :: post)) from rfl]
    rw [show ingestChunks (q :: pre) =
        (if 0 < q.bytes.length then [q.bytes] else []) ++
          (if q.errored then [] else ingestChunks pre) from rfl]
    rw [hq]
    simp only [Bool.false_eq_true, if_false, List.append_assoc]
    rw [ih r post hpre' hr]

theorem ingestChunks_bounds :
    ∀ reads : List ReadRes, (∀ q ∈ reads, q.bytes.length ≤ 4096) →
      ∀ c ∈ ingestChunks reads, 0 < c.length ∧ c.length ≤ 4096 := by
  intro reads
  induction reads with
  | nil => intro _ c hc; simp [ingestChunks] at hc
  | cons r rest ih =>
    intro hb c hc
    rw [ingestChunks] at hc
    rcases List.mem_append.mp hc with h | h
    · by_cases hn : 0 < r.bytes.length
      · rw [if_pos hn] at h
        rw [List.mem_singleton] at h
        subst h
        exact ⟨hn, hb r (List.mem_cons_self r rest)⟩
      · rw [if_neg hn] at h
        simp at h
    · by_cases hE : r.errored = true
      · rw [if_pos hE] at h
        simp at h
      · rw [if_neg hE] at h
        exact ih (fun q hq => hb q (List.mem_cons_of_mem r hq)) c h

/-- C6: the producer ingest loop, given that each body read returns at most
4096 bytes (the buffer size), (1) is exactly the sequential composition of
one `Publish` per non-empty chunk, in read order — the next read outcome is
only consumed after the broadcast for the current one has been applied; (2)
publishes only non-empty chunks of at most 4096 bytes; and (3) terminates at
the first read that reports an error, never consuming or publishing anything
from later read outcomes — no retry. -/
theorem ingest_loop_contract (fail : Nat → Bool) (reads : List ReadRes)
    (st : SrvState) (hb : ∀ q ∈ reads, q.bytes.length ≤ 4096) :
    streamLoop fail reads st =
        run ((ingestChunks reads).map (fun c => Op.publish c fail)) st ∧
      (∀ c ∈ ingestChunks reads, 0 < c.length ∧ c.length ≤ 4096) ∧
      (∀ (pre : List ReadRes) (r : ReadRes) (post : List ReadRes),
        reads = pre ++ r :: post → (∀ q ∈ pre, q.errored = false) →
        r.errored = true →
        ingestChunks reads =
          ingestChunks pre ++ (if 0 < r.bytes.length then [r.bytes] else [])) :=
  ⟨streamLoop_eq_run fail reads st, ingestChunks_bounds reads hb,
    fun pre r post hre hpre hr => by
      rw [hre]
      exact ingestChunks_first_err pre r post hpre hr⟩

theorem ingest_loop_contract_witness :
    (∀ q ∈ [ReadRes.mk [1, 2] false, ReadRes.mk [] true], q.bytes.length ≤ 4096) ∧
      streamLoop (fun _ => false) [ReadRes.mk [1, 2] false, ReadRes.mk [] true]
          (SrvState.mk [3] []) =
        run ((ingestChunks [ReadRes.mk [1, 2] false, ReadRes.mk [] true]).map
          (fun c => Op.publish c (fun _ => false))) (SrvState.mk [3] []) :=
  ⟨by decide,
    (ingest_loop_contract (fun _ => false) [ReadRes.mk [1, 2] false, ReadRes.mk [] true]
      (SrvState.mk [3] []) (by decide)).1⟩

/-- C10: trailing data delivered with a terminal read error is not dropped.
If the first erroring body read returns `n > 0` bytes together with its
error, those bytes are still published, as the final chunk, before the
session terminates: the session's chunk sequence is the error-free prefix's
chunks followed by exactly that final chunk, and the session's effect on the
server state is the corresponding `Publish` sequence ending with the final
chunk's broadcast. -/
theorem trailing_chunk_published (fail : Nat → Bool) (st : SrvState)
    (pre post : List ReadRes) (r : ReadRes)
    (hpre : ∀ q ∈ pre, q.errored = false) (hr : r.errored = true)
    (hn : 0 < r.bytes.length) :
    ingestChunks (pre ++ r :: post) = ingestChunks pre ++ [r.bytes] ∧
      streamLoop fail (pre ++ r :: post) st =
        run (((ingestChunks pre).map (fun c => Op.publish c fail)) ++
          [Op.publish r.bytes fail]) st := by
  have h1 : ingestChunks (pre ++ r :: post) = ingestChunks pre ++ [r.bytes] := by
    rw [ingestChunks_first_err pre r post hpre hr, if_pos hn]
  refine ⟨h1, ?_⟩
  rw [streamLoop_eq_run, h1]
  simp

theorem trailing_chunk_published_witness :
    (∀ q ∈ ([] : List ReadRes), q.errored = false) ∧
      (ReadRes.mk [5] true).errored = true ∧
      0 < (ReadRes.mk [5] true).bytes.length ∧
      (ingestChunks ([] ++ ReadRes.mk [5] true :: [ReadRes.mk [6] false]) =
          ingestChunks [] ++ [(ReadRes.mk [5] true).bytes] ∧
        streamLoop (fun _ => false) ([] ++ ReadRes.mk [5] true :: [ReadRes.mk [6] false])
            (SrvState.mk [4] []) =
          run (((ingestChunks []).map (fun c => Op.publish c (fun _ => false))) ++
            [Op.publish (ReadRes.mk [5] true).bytes (fun _ => false)])
            (SrvState.mk [4] [])) :=
  ⟨by decide, by decide, by decide,
    trailing_chunk_published (fun _ => false) (SrvState.mk [4] []) []
      [ReadRes.mk [6] false] (ReadRes.mk [5] true) (by decide) (by decide) (by decide)⟩

/-- C7 counterexample: at a concrete input both conjuncts of the claim fail.
On an explicit close signal, "exactly once" fails: the close handler
installed by `SetCloseHandler` deletes the connection, and the read loop —
to which `ReadMessage` then returns a `CloseError` — deletes it again, so
`delete(clients, conn)` is invoked twice, not once.  And "the connection is
released" fails: the handler performs no `conn.Close()` on this (or any)
path, so the lifecycle code itself never releases the connection. -/
theorem ws_close_double_remove_cex :
    (wsDetector TermEvent.closeSignal 1 (SrvState.mk [1] [])).2.1 = 2 ∧
      (wsDetector TermEvent.closeSignal 1 (SrvState.mk [1] [])).2.1 ≠ 1 ∧
      (wsDetector TermEvent.closeSignal 1 (SrvState.mk [1] [])).2.2 = false := by
  refine ⟨rfl, ?_, rfl⟩
  decide

/-- C7, amended: on any terminal event the subscriber is removed from the
registry at least once and at most twice — exactly once on a plain read
failure, exactly twice on an explicit close signal (the close handler's
removal followed by the read loop's) — and the second removal has no
additional effect: the final state is the same as after a single removal,
with the connection no longer registered.  The handler itself never
releases the connection: on no terminal event does it call `conn.Close()`
(a subscriber connection is only closed by the eviction phase of a later
broadcast whose write to it fails). -/
theorem ws_remove_idempotent_cleanup (ev : TermEvent) (conn : Nat) (st : SrvState)
    (hnd : st.clients.Nodup) :
    conn ∉ (wsDetector ev conn st).1.clients ∧
      1 ≤ (wsDetector ev conn st).2.1 ∧ (wsDetector ev conn st).2.1 ≤ 2 ∧
      (ev = TermEvent.readError → (wsDetector ev conn st).2.1 = 1) ∧
      (ev = TermEvent.closeSignal → (wsDetector ev conn st).2.1 = 2) ∧
      (wsDetector ev conn st).1 = removeClient conn st ∧
      (wsDetector ev conn st).2.2 = false := by
  have hx : conn ∉ (removeClient conn st).clients := by
    intro hmem
    exact ((hnd.mem_erase_iff).mp hmem).1 rfl
  have h2 : removeClient conn (removeClient conn st) = removeClient conn st := by
    rw [show removeClient conn (removeClient conn st) =
        { removeClient conn st with
            clients := (removeClient conn st).clients.erase conn } from rfl]
    rw [List.erase_of_not_mem hx]
  cases ev with
  | readError =>
    exact ⟨hx, Nat.le_refl 1, Nat.le_succ 1, fun _ => rfl,
      fun h => TermEvent.noConfusion h, rfl, rfl⟩
  | closeSignal =>
    refine ⟨?_, Nat.le_succ 1, Nat.le_refl 2, fun h => TermEvent.noConfusion h,
      fun _ => rfl, h2, rfl⟩
    rw [show (wsDetector TermEvent.closeSignal conn st).1 =
        removeClient conn (removeClient conn st) from rfl, h2]
    exact hx

theorem ws_remove_idempotent_cleanup_witness :
    (SrvState.mk [1, 2] []).clients.Nodup ∧
      (1 ∉ (wsDetector TermEvent.readError 1 (SrvState.mk [1, 2] [])).1.clients ∧
        1 ≤ (wsDetector TermEvent.readError 1 (SrvState.mk [1, 2] [])).2.1 ∧
        (wsDetector TermEvent.readError 1 (SrvState.mk [1, 2] [])).2.1 ≤ 2 ∧
        (TermEvent.readError = TermEvent.readError →
          (wsDetector TermEvent.readError 1 (SrvState.mk [1, 2] [])).2.1 = 1) ∧
        (TermEvent.readError = TermEvent.closeSignal →
          (wsDetector TermEvent.readError 1 (SrvState.mk [1, 2] [])).2.1 = 2) ∧
        (wsDetector TermEvent.readError 1 (SrvState.mk [1, 2] [])).1 =
          removeClient 1 (SrvState.mk [1, 2] []) ∧
        (wsDetector TermEvent.readError 1 (SrvState.mk [1, 2] [])).2.2 = false) :=
  ⟨by decide,
    ws_remove_idempotent_cleanup TermEvent.readError 1 (SrvState.mk [1, 2] [])
      (by decide)⟩

end Remoter
